import Mathlib

/-!
Verification of the markdown-to-document rendering engine of `pdf_generator.py`
(block parser `parse_markdown`, inline formatter `MarkdownPDF._parse_inline`,
font setup `_find_font` / `MarkdownPDF._setup_fonts`, and the dispatch skeleton
of `generate_pdf`).

Text is modelled as `List Char`; a Python string `s` corresponds to
`s.toList`.  Python's `str.strip()` and the regex classes `\s` / `\d` are
modelled over their ASCII subsets (the inputs of interest are ASCII markdown
markup characters; the claims do not depend on exotic Unicode whitespace).
-/

/-- ASCII model of Python's whitespace set used by `str.strip()` and `\s`:
space, tab, newline, carriage return, vertical tab, form feed. -/
def pyIsSpace (c : Char) : Bool :=
  match c with
  | ' ' | '\t' | '\n' | '\r' | '\x0b' | '\x0c' => true
  | _ => false

/-- Python `str.strip()`: drop leading and trailing whitespace. -/
def pyStrip (s : List Char) : List Char :=
  ((s.dropWhile pyIsSpace).reverse.dropWhile pyIsSpace).reverse

/-- Python `str.split(sep)` for a one-character separator: e.g.
`"".split('|') = [""]`, `"a|b".split('|') = ["a","b"]`. -/
def splitOnC (sep : Char) : List Char → List (List Char)
  | [] => [[]]
  | c :: rest =>
    if c = sep then [] :: splitOnC sep rest
    else
      match splitOnC sep rest with
      | [] => [[c]]
      | l :: ls => (c :: l) :: ls

/-- Python `sep.join(parts)` for a one-character separator. -/
def joinSep (sep : Char) : List (List Char) → List Char
  | [] => []
  | [l] => l
  | l :: ls => l ++ sep :: joinSep sep ls

/-! ## Inline formatter (`MarkdownPDF._parse_inline`)

The Python code runs `re.finditer` over the ordered alternation

  `\[([^\]]+)\]\(([^)]+)\)` | `\*\*([^*]+)\*\*` | `__([^_]+)__`
  | `(?<!\*)\*([^*]+)\*(?!\*)` | `(?<!_)_([^_]+)_(?!_)`

collecting a part per match plus verbatim text parts for the gaps.  Each
alternative is deterministic (its repeated classes exclude the closing
delimiter, so greedy matching is forced), so `finditer` is: scan positions
left to right, at each position take the first alternative that matches,
then resume after the match.  Each scanner below returns
`(span, matched source segment, remaining input)`.
-/

/-- A parsed inline span (the `(part_type, content)` pairs of the Python code). -/
inductive Span where
  | text (content : List Char)
  | bold (content : List Char)
  | italic (content : List Char)
  | link (label : List Char) (url : List Char)
deriving DecidableEq

/-- `\[([^\]]+)\]\(([^)]+)\)` at the head of the input. -/
def tryLink : List Char → Option (Span × List Char × List Char)
  | '[' :: t =>
    let lab := t.takeWhile (fun c => c != ']')
    match t.dropWhile (fun c => c != ']') with
    | ']' :: '(' :: v =>
      let url := v.takeWhile (fun c => c != ')')
      match v.dropWhile (fun c => c != ')') with
      | ')' :: w =>
        if lab.isEmpty || url.isEmpty then none
        else some (Span.link lab url, '[' :: (lab ++ ']' :: '(' :: (url ++ [')'])), w)
      | _ => none
    | _ => none
  | _ => none

/-- `\*\*([^*]+)\*\*` at the head of the input. -/
def tryBoldStar : List Char → Option (Span × List Char × List Char)
  | '*' :: '*' :: t =>
    let content := t.takeWhile (fun c => c != '*')
    match t.dropWhile (fun c => c != '*') with
    | '*' :: '*' :: w =>
      if content.isEmpty then none
      else some (Span.bold content, '*' :: '*' :: (content ++ ['*', '*']), w)
    | _ => none
  | _ => none

/-- `__([^_]+)__` at the head of the input. -/
def tryBoldUnd : List Char → Option (Span × List Char × List Char)
  | '_' :: '_' :: t =>
    let content := t.takeWhile (fun c => c != '_')
    match t.dropWhile (fun c => c != '_') with
    | '_' :: '_' :: w =>
      if content.isEmpty then none
      else some (Span.bold content, '_' :: '_' :: (content ++ ['_', '_']), w)
    | _ => none
  | _ => none

/-- `(?<!\*)\*([^*]+)\*(?!\*)` at the head of the input; `prev` is the
character just before the current position (`none` at the start of the
string), used for the lookbehind. -/
def tryItalicStar (prev : Option Char) : List Char → Option (Span × List Char × List Char)
  | '*' :: t =>
    if prev == some '*' then none
    else
      let content := t.takeWhile (fun c => c != '*')
      match t.dropWhile (fun c => c != '*') with
      | '*' :: w =>
        if content.isEmpty then none
        else
          match w with
          | '*' :: _ => none
          | _ => some (Span.italic content, '*' :: (content ++ ['*']), w)
      | _ => none
  | _ => none

/-- `(?<!_)_([^_]+)_(?!_)` at the head of the input. -/
def tryItalicUnd (prev : Option Char) : List Char → Option (Span × List Char × List Char)
  | '_' :: t =>
    if prev == some '_' then none
    else
      let content := t.takeWhile (fun c => c != '_')
      match t.dropWhile (fun c => c != '_') with
      | '_' :: w =>
        if content.isEmpty then none
        else
          match w with
          | '_' :: _ => none
          | _ => some (Span.italic content, '_' :: (content ++ ['_']), w)
      | _ => none
  | _ => none

/-- One attempt of the combined alternation at the current position, in the
priority order of the Python `patterns` list: link, `**bold**`, `__bold__`,
`*italic*`, `_italic_`. -/
def findMatchAt (prev : Option Char) (s : List Char) : Option (Span × List Char × List Char) :=
  match tryLink s with
  | some r => some r
  | none =>
    match tryBoldStar s with
    | some r => some r
    | none =>
      match tryBoldUnd s with
      | some r => some r
      | none =>
        match tryItalicStar prev s with
        | some r => some r
        | none => tryItalicUnd prev s

/-- Emit the accumulated gap text (`parts.append(("text", text[pos:start]))`);
`gap` holds the pending characters in reverse. -/
def flushGap (gap : List Char) : List (Span × List Char) :=
  if gap.isEmpty then [] else [(Span.text gap.reverse, gap.reverse)]

/-- The `re.finditer` scan.  `fuel` bounds the recursion (the caller passes
the input length, which suffices because every step consumes at least one
character); `prev` is the character before the current position; `gap` is
the pending plain text, reversed.  Alongside each span we keep the source
segment it was produced from (ghost data used to state the reconstruction
invariant). -/
def scanAuxF : Nat → Option Char → List Char → List Char → List (Span × List Char)
  | 0, _, gap, _ => flushGap gap
  | fuel + 1, prev, gap, rem =>
    match rem with
    | [] => flushGap gap
    | c :: rest =>
      match findMatchAt prev (c :: rest) with
      | some (sp, src, rest') =>
        flushGap gap ++ (sp, src) :: scanAuxF fuel src.getLast? [] rest'
      | none => scanAuxF fuel (some c) (c :: gap) rest

/-- `MarkdownPDF._parse_inline`, with each part annotated by its source
segment.  When no parts were produced (empty input) the Python code appends
`("text", text)`, i.e. one empty text part. -/
def parseInlineSrc (text : List Char) : List (Span × List Char) :=
  let ps := scanAuxF text.length none [] text
  if ps.isEmpty then [(Span.text text, text)] else ps

/-- `MarkdownPDF._parse_inline`: the list of parts. -/
def parse_inline (text : List Char) : List Span :=
  (parseInlineSrc text).map Prod.fst

/-- The content a span contributes when concatenating (a link contributes its
label). -/
def contentOf : Span → List Char
  | Span.text c => c
  | Span.bold c => c
  | Span.italic c => c
  | Span.link lab _ => lab

/-- Relation between a span and the source segment it was parsed from: the
segment is exactly the span's content surrounded by the consumed markup
delimiters. -/
def spanSrcOk : Span × List Char → Prop
  | (Span.text c, src) => src = c
  | (Span.bold c, src) => src = '*' :: '*' :: (c ++ ['*', '*']) ∨ src = '_' :: '_' :: (c ++ ['_', '_'])
  | (Span.italic c, src) => src = '*' :: (c ++ ['*']) ∨ src = '_' :: (c ++ ['_'])
  | (Span.link lab url, src) => src = '[' :: (lab ++ ']' :: '(' :: (url ++ [')']))

/-- Concatenation of the source segments of an annotated span list. -/
def srcConcat (l : List (Span × List Char)) : List Char :=
  l.foldr (fun p acc => p.2 ++ acc) []


/-! ## Block parser (`parse_markdown`) -/

/-- A parsed block (the dictionaries appended to `blocks`). -/
inductive Block where
  | h1 (content : List Char)
  | h2 (content : List Char)
  | separator
  | table (rows : List (List (List Char)))
  | bullet (content : List Char)
  | numbered (number : List Char) (content : List Char)
  | paragraph (content : List Char)
deriving DecidableEq

/-- The character class `[-:\s|]` of the table-separator regex. -/
def isSepClass (c : Char) : Bool :=
  c == '-' || c == ':' || c == '|' || pyIsSpace c

/-- Python `re.match(r'\|[-:\s|]+\|', row_line)` truthiness.  `re.match`
anchors only at the start: the pattern matches iff the line starts with `|`
followed by at least one `[-:\s|]` character and then another `|` (the rest
of the line is unconstrained).  Since the closing `|` is itself a class
character, this holds iff the maximal class run after the opening `|`
contains a `|` at position ≥ 1. -/
def sepHit (s : List Char) : Bool :=
  match s with
  | [] => false
  | c :: t => c == '|' && ((t.takeWhile isSepClass).drop 1).contains '|'

/-- The table-capture loop: `while i < len(lines) and '|' in lines[i]`,
skipping separator rows, splitting the rest on `|`, dropping the first and
last fields (`split('|')[1:-1]`), trimming the cells, and keeping the row
only if some cell remains.  Returns the captured rows and the unconsumed
lines. -/
def captureTable : List (List Char) → List (List (List Char)) × List (List Char)
  | [] => ([], [])
  | line :: rest =>
    if line.contains '|' then
      let rowLine := pyStrip line
      if sepHit rowLine then captureTable rest
      else
        let cells := ((splitOnC '|' rowLine).tail.dropLast).map pyStrip
        let res := captureTable rest
        (if cells.isEmpty then res.1 else cells :: res.1, res.2)
    else ([], line :: rest)

/-- `re.match(r'^(\d+)\.\s+(.+)$', stripped)`: a maximal nonempty digit run,
a dot, a nonempty whitespace run, then at least one remaining character;
returns the number and the trailing text.  (Applied to stripped lines, which
contain no newline, so `.` and `$` need no special care; the greedy runs are
forced because a shorter digit run is followed by a digit, not `.`.) -/
def numMatch (s : List Char) : Option (List Char × List Char) :=
  let ds := s.takeWhile Char.isDigit
  if ds.isEmpty then none
  else
    match s.drop ds.length with
    | '.' :: t =>
      let ws := t.takeWhile pyIsSpace
      if ws.isEmpty then none
      else
        let restc := t.drop ws.length
        if restc.isEmpty then none else some (ds, restc)
    | _ => none

/-- `re.match(r'^\d+\.\s+', next_line)` truthiness (the paragraph-break
test: no trailing `(.+)$` group). -/
def numStart (s : List Char) : Bool :=
  let ds := s.takeWhile Char.isDigit
  if ds.isEmpty then false
  else
    match s.drop ds.length with
    | '.' :: t => !(t.takeWhile pyIsSpace).isEmpty
    | _ => false

/-- The paragraph-accumulation break test on the stripped next line:
`if not next_line or next_line.startswith('#') or next_line.startswith('|')
or next_line in ['---','***','___']`, bullets, or a numbered-item start. -/
def breaksPara (s : List Char) : Bool :=
  s.isEmpty
  || (['#'].isPrefixOf s)
  || (['|'].isPrefixOf s)
  || (s == ("---").toList) || (s == ("***").toList) || (s == ("___").toList)
  || (("• ").toList.isPrefixOf s) || (("- ").toList.isPrefixOf s) || (("* ").toList.isPrefixOf s)
  || numStart s

/-- The paragraph-accumulation loop: consume following lines while none of
the break conditions hold, collecting their stripped text. -/
def capturePara : List (List Char) → List (List Char) × List (List Char)
  | [] => ([], [])
  | l :: rest =>
    let nl := pyStrip l
    if breaksPara nl then ([], l :: rest)
    else
      let res := capturePara rest
      (nl :: res.1, res.2)

/-- The body of `parse_markdown`'s `while` loop, with explicit fuel (the
caller passes the number of lines, which suffices because every iteration
consumes at least one line).  The branch order is exactly the source's:
blank skip, `## `, `### `, `# `, horizontal rule, table, bullet, numbered
item, paragraph accumulation. -/
def parseLinesF : Nat → List (List Char) → List Block
  | 0, _ => []
  | _ + 1, [] => []
  | fuel + 1, line :: rest =>
    let stripped := pyStrip line
    if stripped.isEmpty then parseLinesF fuel rest
    else if ("## ").toList.isPrefixOf stripped then
      Block.h1 (stripped.drop 3) :: parseLinesF fuel rest
    else if ("### ").toList.isPrefixOf stripped then
      Block.h2 (stripped.drop 4) :: parseLinesF fuel rest
    else if ("# ").toList.isPrefixOf stripped then
      Block.h1 (stripped.drop 2) :: parseLinesF fuel rest
    else if (stripped == ("---").toList) || (stripped == ("***").toList)
        || (stripped == ("___").toList) then
      Block.separator :: parseLinesF fuel rest
    else if stripped.contains '|' && ['|'].isPrefixOf stripped then
      let res := captureTable (line :: rest)
      (if res.1.isEmpty then [] else [Block.table res.1]) ++ parseLinesF fuel res.2
    else if (("• ").toList.isPrefixOf stripped) || (("- ").toList.isPrefixOf stripped)
        || (("* ").toList.isPrefixOf stripped) then
      Block.bullet (stripped.drop 2) :: parseLinesF fuel rest
    else
      match numMatch stripped with
      | some nc => Block.numbered nc.1 nc.2 :: parseLinesF fuel rest
      | none =>
        let res := capturePara rest
        Block.paragraph (joinSep ' ' (stripped :: res.1)) :: parseLinesF fuel res.2

/-- `parse_markdown`: split on newlines and run the block loop. -/
def parse_markdown (text : List Char) : List Block :=
  let lines := splitOnC '\n' text
  parseLinesF lines.length lines

/-- The rule-1–6 test of the claims: does a stripped line match any of the
heading / horizontal-rule / table / bullet / numbered-item rules? -/
def rule16 (s : List Char) : Bool :=
  ("## ").toList.isPrefixOf s || ("### ").toList.isPrefixOf s || ("# ").toList.isPrefixOf s
  || (s == ("---").toList) || (s == ("***").toList) || (s == ("___").toList)
  || (s.contains '|' && ['|'].isPrefixOf s)
  || (("• ").toList.isPrefixOf s) || (("- ").toList.isPrefixOf s) || (("* ").toList.isPrefixOf s)
  || (numMatch s).isSome






/-! ## Font setup (`_find_font`, `MarkdownPDF._setup_fonts`)

The filesystem is modelled as a predicate `fs : String → Bool`
(`os.path.exists`). -/

/-- The `FONT_PATHS` table. -/
def fontPaths : String → List String
  | "regular" =>
    ["/usr/share/fonts/truetype/dejavu/DejaVuSans.ttf",
     "/usr/share/fonts/dejavu-sans-fonts/DejaVuSans.ttf",
     "/System/Library/Fonts/Supplemental/Arial Unicode.ttf",
     "/Library/Fonts/Arial Unicode.ttf"]
  | "bold" =>
    ["/usr/share/fonts/truetype/dejavu/DejaVuSans-Bold.ttf",
     "/usr/share/fonts/dejavu-sans-fonts/DejaVuSans-Bold.ttf",
     "/System/Library/Fonts/Supplemental/Arial Unicode.ttf",
     "/Library/Fonts/Arial Unicode.ttf"]
  | "italic" =>
    ["/usr/share/fonts/truetype/dejavu/DejaVuSans-Oblique.ttf",
     "/usr/share/fonts/dejavu-sans-fonts/DejaVuSans-Oblique.ttf",
     "/System/Library/Fonts/Supplemental/Arial Unicode.ttf",
     "/Library/Fonts/Arial Unicode.ttf"]
  | _ => []

/-- `_find_font`: the first existing candidate path, if any. -/
def find_font (fs : String → Bool) (fontType : String) : Option String :=
  (fontPaths fontType).find? fs

/-- The observable result of `MarkdownPDF._setup_fonts`: the active font
family name and the `add_font` registrations `(family, style, path)`. -/
structure FontSetup where
  font_name : String
  regs : List (String × String × String)
deriving DecidableEq

/-- `MarkdownPDF.__init__` + `_setup_fonts`: `font_name` starts as
`"Helvetica"`; if a regular Unicode font is found it is registered and the
bold/italic styles fall back to the regular file when their own candidates
are all missing. -/
def setup_fonts (fs : String → Bool) : FontSetup :=
  match find_font fs "regular" with
  | none => { font_name := "Helvetica", regs := [] }
  | some regular =>
    let boldPath := match find_font fs "bold" with
      | some b => b
      | none => regular
    let italicPath := match find_font fs "italic" with
      | some it => it
      | none => regular
    { font_name := "Unicode",
      regs := [("Unicode", "", regular), ("Unicode", "B", boldPath), ("Unicode", "I", italicPath)] }

/-! ## Document assembly (`generate_pdf`)

The fpdf drawing calls are abstracted into opcodes: the function always
emits the centered title cell and the generation-timestamp cell, then one
opcode per parsed block (the `for block in blocks` dispatch).  The
timestamp string is passed explicitly (`datetime.now().strftime(...)` in
the source). -/

/-- One rendering step of `generate_pdf`. -/
inductive RenderOp where
  | titleCell (title : List Char)
  | dateCell (dateStr : List Char)
  | h1 (content : List Char)
  | h2 (content : List Char)
  | table (rows : List (List (List Char)))
  | bullet (content : List Char)
  | numbered (number : List Char) (content : List Char)
  | separator
  | paragraph (content : List Char)
deriving DecidableEq

/-- The `for block in blocks` dispatch of `generate_pdf` (every `Block`
variant has a branch). -/
def renderBlock : Block → RenderOp
  | Block.h1 c => RenderOp.h1 c
  | Block.h2 c => RenderOp.h2 c
  | Block.table rows => RenderOp.table rows
  | Block.bullet c => RenderOp.bullet c
  | Block.numbered n c => RenderOp.numbered n c
  | Block.separator => RenderOp.separator
  | Block.paragraph c => RenderOp.paragraph c

/-- `generate_pdf`: header (title + timestamp) followed by the rendering of
each parsed block, as a total function — no input makes it fail. -/
def generate_pdf (dateStr : List Char) (text : List Char) (title : List Char) : List RenderOp :=
  RenderOp.titleCell title :: RenderOp.dateCell dateStr :: (parse_markdown text).map renderBlock

/-! ## Claim-side notions for the table claims -/

/-- An alignment-separator row as the claims describe it: the whole line is
`|`, then at least one character from `-`, `:`, whitespace, `|`, then a
final `|`. -/
def IsSepLine (s : List Char) : Prop :=
  ∃ mid, mid ≠ [] ∧ (∀ c ∈ mid, isSepClass c = true) ∧ s = '|' :: mid ++ ['|']

/-- The line `|c₁|c₂|...|cₘ|` of a pipe-table row with cells `cs`. -/
def mkRowL (cs : List (List Char)) : List Char :=
  '|' :: joinSep '|' cs ++ ['|']

/-- A well-formed pipe table with `M` columns: each line is either an
alignment-separator row or a data row `|c₁|...|cₘ|` whose cells contain no
`|` or newline; data lines must not begin with an alignment-separator
shaped segment (otherwise the parser discards them, see the `C3` claim).
The second index collects the trimmed data rows in source order. -/
inductive TableLinesR (M : Nat) : List (List Char) → List (List (List Char)) → Prop where
  | nil : TableLinesR M [] []
  | sep (s : List Char) (hs : IsSepLine s) (hn : '\n' ∉ s) {tl rows}
      (h : TableLinesR M tl rows) : TableLinesR M (s :: tl) rows
  | row (cs : List (List Char)) (hne : cs ≠ []) (hM : cs.length = M)
      (hc : ∀ c ∈ cs, '\n' ∉ c ∧ '|' ∉ c)
      (hnp : sepHit (mkRowL cs) = false) {tl rows}
      (h : TableLinesR M tl rows) : TableLinesR M (mkRowL cs :: tl) (cs.map pyStrip :: rows)

/-! ## Helper lemmas about the string primitives -/

theorem takeWhile_of_all {p : Char → Bool} {l : List Char}
    (h : ∀ c ∈ l, p c = true) : l.takeWhile p = l :=
  List.takeWhile_eq_self_iff.mpr h

theorem takeWhile_append_of_all {p : Char → Bool} {l₁ l₂ : List Char}
    (h : ∀ c ∈ l₁, p c = true) :
    (l₁ ++ l₂).takeWhile p = l₁ ++ l₂.takeWhile p := by
  have hx : l₁.takeWhile p = l₁ := takeWhile_of_all h
  rw [List.takeWhile_append, hx, if_pos rfl]

theorem joinSep_cons₂ (sep : Char) (l l' : List Char) (rest : List (List Char)) :
    joinSep sep (l :: l' :: rest) = l ++ sep :: joinSep sep (l' :: rest) := rfl

theorem dropWhile_pipe (l : List Char) :
    List.dropWhile pyIsSpace ('|' :: l) = '|' :: l := by
  rw [List.dropWhile_cons, if_neg (by decide : ¬(pyIsSpace '|' = true))]

theorem pyStrip_pipe (xs : List Char) :
    pyStrip ('|' :: xs ++ ['|']) = '|' :: xs ++ ['|'] := by
  unfold pyStrip
  rw [show ('|' :: xs ++ ['|'] : List Char) = '|' :: (xs ++ ['|']) from rfl, dropWhile_pipe]
  rw [show ('|' :: (xs ++ ['|']) : List Char).reverse = '|' :: (xs.reverse ++ ['|']) by simp]
  rw [dropWhile_pipe]
  simp

theorem splitOnC_of_no_sep {sep : Char} {l : List Char} (h : sep ∉ l) :
    splitOnC sep l = [l] := by
  induction l with
  | nil => rfl
  | cons c rest ih =>
    have hc : ¬c = sep := fun hcc => h (by simp [hcc])
    have hr := ih (fun hm => h (List.mem_cons_of_mem _ hm))
    rw [splitOnC, if_neg hc, hr]

theorem splitOnC_append_sep {sep : Char} {l t : List Char} (h : sep ∉ l) :
    splitOnC sep (l ++ sep :: t) = l :: splitOnC sep t := by
  induction l with
  | nil => simp [splitOnC]
  | cons c rest ih =>
    have hc : ¬c = sep := fun hcc => h (by simp [hcc])
    have hr := ih (fun hm => h (List.mem_cons_of_mem _ hm))
    rw [List.cons_append, splitOnC, if_neg hc, hr]

theorem splitOnC_joinSep {sep : Char} {ls : List (List Char)} (hne : ls ≠ [])
    (h : ∀ l ∈ ls, sep ∉ l) : splitOnC sep (joinSep sep ls) = ls := by
  induction ls with
  | nil => exact absurd rfl hne
  | cons l rest ih =>
    cases rest with
    | nil => exact splitOnC_of_no_sep (h l (by simp))
    | cons l' rest' =>
      rw [joinSep_cons₂, splitOnC_append_sep (h l (by simp))]
      rw [ih (by simp) (fun x hx => h x (List.mem_cons_of_mem _ hx))]

theorem mem_joinSep {sep : Char} {c : Char} {ls : List (List Char)}
    (h : c ∈ joinSep sep ls) : c = sep ∨ ∃ l ∈ ls, c ∈ l := by
  induction ls with
  | nil => simp [joinSep] at h
  | cons l rest ih =>
    cases rest with
    | nil => exact Or.inr ⟨l, by simp, h⟩
    | cons l' rest' =>
      rw [joinSep_cons₂] at h
      rcases List.mem_append.mp h with h1 | h2
      · exact Or.inr ⟨l, by simp, h1⟩
      · rcases List.mem_cons.mp h2 with h3 | h4
        · exact Or.inl h3
        · rcases ih h4 with h5 | ⟨x, hx, hcx⟩
          · exact Or.inl h5
          · exact Or.inr ⟨x, List.mem_cons_of_mem _ hx, hcx⟩

theorem srcConcat_append (a b : List (Span × List Char)) :
    srcConcat (a ++ b) = srcConcat a ++ srcConcat b := by
  induction a with
  | nil => rfl
  | cons p rest ih => simp [srcConcat, List.foldr_cons] at ih ⊢; rw [ih]

/-! ## Correctness of the inline scan (claim C1) -/

theorem srcConcat_cons (p : Span × List Char) (l : List (Span × List Char)) :
    srcConcat (p :: l) = p.2 ++ srcConcat l := rfl

theorem srcConcat_flushGap (gap : List Char) : srcConcat (flushGap gap) = gap.reverse := by
  rw [flushGap]
  by_cases hg : gap.isEmpty
  · rw [if_pos hg, List.isEmpty_iff.mp hg]
    rfl
  · rw [if_neg hg]
    simp [srcConcat]

theorem flushGap_ok (gap : List Char) : ∀ p ∈ flushGap gap, spanSrcOk p := by
  intro p hp
  rw [flushGap] at hp
  split at hp
  · cases hp
  · rcases List.mem_cons.mp hp with h1 | h2
    · rw [h1]; exact rfl
    · cases h2

theorem tryLink_spec {s : List Char} {sp : Span} {src rest : List Char}
    (h : tryLink s = some (sp, src, rest)) :
    src ++ rest = s ∧ src ≠ [] ∧ spanSrcOk (sp, src) := by
  rw [tryLink.eq_def] at h
  split at h
  · rename_i t
    simp only [] at h
    split at h
    · rename_i v heq1
      split at h
      · rename_i w heq2
        split at h
        · simp at h
        · simp only [Option.some.injEq, Prod.mk.injEq] at h
          obtain ⟨h1, h2, h3⟩ := h
          subst h1; subst h2; subst h3
          have ht := (List.takeWhile_append_dropWhile (fun c => c != ']') t).symm
          rw [heq1] at ht
          have hv := (List.takeWhile_append_dropWhile (fun c => c != ')') v).symm
          rw [heq2] at hv
          refine ⟨?_, by simp, rfl⟩
          rw [List.cons_append]
          congr 1
          conv_rhs => rw [ht]
          conv_rhs => rw [hv]
          simp
      · simp at h
    · simp at h
  · simp at h

theorem tryBoldStar_spec {s : List Char} {sp : Span} {src rest : List Char}
    (h : tryBoldStar s = some (sp, src, rest)) :
    src ++ rest = s ∧ src ≠ [] ∧ spanSrcOk (sp, src) := by
  rw [tryBoldStar.eq_def] at h
  split at h
  · rename_i t
    simp only [] at h
    split at h
    · rename_i w heq
      split at h
      · simp at h
      · simp only [Option.some.injEq, Prod.mk.injEq] at h
        obtain ⟨h1, h2, h3⟩ := h
        subst h1; subst h2; subst h3
        have ht := (List.takeWhile_append_dropWhile (fun c => c != '*') t).symm
        rw [heq] at ht
        refine ⟨?_, by simp, Or.inl rfl⟩
        rw [List.cons_append, List.cons_append]
        congr 2
        conv_rhs => rw [ht]
        simp
    · simp at h
  · simp at h

theorem tryBoldUnd_spec {s : List Char} {sp : Span} {src rest : List Char}
    (h : tryBoldUnd s = some (sp, src, rest)) :
    src ++ rest = s ∧ src ≠ [] ∧ spanSrcOk (sp, src) := by
  rw [tryBoldUnd.eq_def] at h
  split at h
  · rename_i t
    simp only [] at h
    split at h
    · rename_i w heq
      split at h
      · simp at h
      · simp only [Option.some.injEq, Prod.mk.injEq] at h
        obtain ⟨h1, h2, h3⟩ := h
        subst h1; subst h2; subst h3
        have ht := (List.takeWhile_append_dropWhile (fun c => c != '_') t).symm
        rw [heq] at ht
        refine ⟨?_, by simp, Or.inr rfl⟩
        rw [List.cons_append, List.cons_append]
        congr 2
        conv_rhs => rw [ht]
        simp
    · simp at h
  · simp at h

theorem tryItalicStar_spec {prev : Option Char} {s : List Char} {sp : Span}
    {src rest : List Char} (h : tryItalicStar prev s = some (sp, src, rest)) :
    src ++ rest = s ∧ src ≠ [] ∧ spanSrcOk (sp, src) := by
  rw [tryItalicStar.eq_def] at h
  split at h
  · rename_i t
    split at h
    · simp at h
    · simp only [] at h
      split at h
      · rename_i w heq
        split at h
        · simp at h
        · split at h
          · simp at h
          · simp only [Option.some.injEq, Prod.mk.injEq] at h
            obtain ⟨h1, h2, h3⟩ := h
            subst h1; subst h2; subst h3
            have ht := (List.takeWhile_append_dropWhile (fun c => c != '*') t).symm
            rw [heq] at ht
            refine ⟨?_, by simp, Or.inl rfl⟩
            rw [List.cons_append]
            congr 1
            conv_rhs => rw [ht]
            simp
      · simp at h
  · simp at h

theorem tryItalicUnd_spec {prev : Option Char} {s : List Char} {sp : Span}
    {src rest : List Char} (h : tryItalicUnd prev s = some (sp, src, rest)) :
    src ++ rest = s ∧ src ≠ [] ∧ spanSrcOk (sp, src) := by
  rw [tryItalicUnd.eq_def] at h
  split at h
  · rename_i t
    split at h
    · simp at h
    · simp only [] at h
      split at h
      · rename_i w heq
        split at h
        · simp at h
        · split at h
          · simp at h
          · simp only [Option.some.injEq, Prod.mk.injEq] at h
            obtain ⟨h1, h2, h3⟩ := h
            subst h1; subst h2; subst h3
            have ht := (List.takeWhile_append_dropWhile (fun c => c != '_') t).symm
            rw [heq] at ht
            refine ⟨?_, by simp, Or.inr rfl⟩
            rw [List.cons_append]
            congr 1
            conv_rhs => rw [ht]
            simp
      · simp at h
  · simp at h

theorem findMatchAt_spec {prev : Option Char} {s : List Char} {sp : Span}
    {src rest : List Char} (h : findMatchAt prev s = some (sp, src, rest)) :
    src ++ rest = s ∧ src ≠ [] ∧ spanSrcOk (sp, src) := by
  rw [findMatchAt] at h
  split at h
  · rename_i r heq
    simp only [Option.some.injEq] at h
    subst h
    exact tryLink_spec heq
  · split at h
    · rename_i r heq
      simp only [Option.some.injEq] at h
      subst h
      exact tryBoldStar_spec heq
    · split at h
      · rename_i r heq
        simp only [Option.some.injEq] at h
        subst h
        exact tryBoldUnd_spec heq
      · split at h
        · rename_i r heq
          simp only [Option.some.injEq] at h
          subst h
          exact tryItalicStar_spec heq
        · exact tryItalicUnd_spec h

/-- Invariant of the `finditer` scan: the source segments of the produced
parts concatenate to the pending gap plus the remaining input, and every
part is its source segment minus the consumed delimiters. -/
theorem scanAuxF_spec : ∀ (fuel : Nat) (prev : Option Char) (gap rem : List Char),
    rem.length ≤ fuel →
    srcConcat (scanAuxF fuel prev gap rem) = gap.reverse ++ rem
    ∧ ∀ p ∈ scanAuxF fuel prev gap rem, spanSrcOk p := by
  intro fuel
  induction fuel with
  | zero =>
    intro prev gap rem hle
    have hrem : rem = [] := List.length_eq_zero.mp (Nat.le_zero.mp hle)
    subst hrem
    exact ⟨by rw [show scanAuxF 0 prev gap [] = flushGap gap from rfl, srcConcat_flushGap]; simp,
      flushGap_ok gap⟩
  | succ fuel ih =>
    intro prev gap rem hle
    cases rem with
    | nil =>
      exact ⟨by rw [show scanAuxF (fuel + 1) prev gap [] = flushGap gap from rfl,
        srcConcat_flushGap]; simp, flushGap_ok gap⟩
    | cons c rest =>
      cases hm : findMatchAt prev (c :: rest) with
      | none =>
        have hstep : scanAuxF (fuel + 1) prev gap (c :: rest)
            = scanAuxF fuel (some c) (c :: gap) rest := by
          simp only [scanAuxF, hm]
        have hih := ih (some c) (c :: gap) rest (by simpa using Nat.le_of_succ_le_succ hle)
        rw [hstep]
        refine ⟨?_, hih.2⟩
        rw [hih.1]
        simp
      | some trip =>
        obtain ⟨sp, src, rest'⟩ := trip
        have hspec := findMatchAt_spec hm
        have hlen : rest'.length ≤ fuel := by
          have h1 : src.length + rest'.length = rest.length + 1 := by
            have := congrArg List.length hspec.1
            simpa using this
          have h2 : 0 < src.length := List.length_pos.mpr hspec.2.1
          have h3 : rest.length + 1 ≤ fuel + 1 := by simpa using hle
          omega
        have hstep : scanAuxF (fuel + 1) prev gap (c :: rest)
            = flushGap gap ++ (sp, src) :: scanAuxF fuel src.getLast? [] rest' := by
          simp only [scanAuxF, hm]
        have hih := ih src.getLast? [] rest' hlen
        rw [hstep]
        constructor
        · rw [srcConcat_append, srcConcat_flushGap, srcConcat_cons, hih.1]
          simp only [List.reverse_nil, List.nil_append]
          rw [show (src ++ rest' : List Char) = c :: rest from hspec.1]
        · intro p hp
          rcases List.mem_append.mp hp with h1 | h2
          · exact flushGap_ok gap p h1
          · rcases List.mem_cons.mp h2 with h3 | h4
            · rw [h3]; exact hspec.2.2
            · exact hih.2 p h4

/-! ## The alignment-separator prefix match (claim C3) -/

/-- Characterization of the code's `re.match(r'\|[-:\s|]+\|', row_line)`
test: it fires exactly when the line starts with `|`, then at least one
`[-:\s|]` character, then another `|` — with the rest of the line
unconstrained (a prefix match, not a full match). -/
theorem sepHit_iff (s : List Char) :
    sepHit s = true ↔
      ∃ mid t, mid ≠ [] ∧ (∀ c ∈ mid, isSepClass c = true) ∧ s = '|' :: mid ++ '|' :: t := by
  cases s with
  | nil =>
    simp only [sepHit]
    constructor
    · intro h; cases h
    · rintro ⟨mid, t, -, -, h⟩; cases h
  | cons c t =>
    show (c == '|' && ((t.takeWhile isSepClass).drop 1).contains '|') = true ↔ _
    constructor
    · intro h
      have hc : c = '|' := by
        have := (Bool.and_eq_true _ _).mp h |>.1
        exact beq_iff_eq.mp this
      have hmem : '|' ∈ (t.takeWhile isSepClass).drop 1 := by
        have := (Bool.and_eq_true _ _).mp h |>.2
        exact List.elem_iff.mp this
      subst hc
      cases hr : t.takeWhile isSepClass with
      | nil => rw [hr] at hmem; cases hmem
      | cons r0 rtail =>
        rw [hr] at hmem
        simp only [List.drop_one, List.tail_cons] at hmem
        obtain ⟨a, b, hab⟩ := List.append_of_mem hmem
        have hclass : ∀ x ∈ t.takeWhile isSepClass, isSepClass x = true :=
          fun x hx => List.mem_takeWhile_imp hx
        obtain ⟨d, hd⟩ : ∃ d, t.dropWhile isSepClass = d := ⟨_, rfl⟩
        have ht : t = (r0 :: a) ++ '|' :: (b ++ d) := by
          conv_lhs => rw [(List.takeWhile_append_dropWhile isSepClass t).symm, hr, hab, hd]
          simp
        refine ⟨r0 :: a, b ++ d, by simp, ?_, by rw [ht]; rfl⟩
        intro x hx
        apply hclass
        rw [hr]
        rcases List.mem_cons.mp hx with h1 | h2
        · rw [h1]; exact List.mem_cons_self _ _
        · have hxr : x ∈ rtail := by rw [hab]; exact List.mem_append_left _ h2
          exact List.mem_cons_of_mem _ hxr
    · rintro ⟨mid, t', hne, hall, heq⟩
      obtain ⟨hc, ht⟩ := List.cons_eq_cons.mp heq
      subst hc; subst ht
      simp only [List.append_eq]
      rw [takeWhile_append_of_all hall, List.takeWhile_cons,
        if_pos (by decide : isSepClass '|' = true)]
      cases mid with
      | nil => exact absurd rfl hne
      | cons m0 mtail =>
        simp only [List.cons_append, List.drop_one, List.tail_cons, beq_self_eq_true,
          Bool.true_and]
        exact List.elem_iff.mpr (List.mem_append_right _ (List.mem_cons_self _ _))

theorem joinSep_append_nil {sep : Char} {cs : List (List Char)} (h : cs ≠ []) :
    joinSep sep (cs ++ [[]]) = joinSep sep cs ++ [sep] := by
  induction cs with
  | nil => exact absurd rfl h
  | cons c rest ih =>
    cases rest with
    | nil => rfl
    | cons c' rest' =>
      have ih' : joinSep sep (c' :: (rest' ++ [[]])) = joinSep sep (c' :: rest') ++ [sep] :=
        ih (by simp)
      show joinSep sep (c :: c' :: (rest' ++ [[]])) = _
      rw [joinSep_cons₂, ih', joinSep_cons₂]
      simp

/-- The table-capture loop consumes a well-formed table completely and
produces exactly its trimmed data rows. -/
theorem captureTable_tlr {M : Nat} {tl : List (List Char)} {rows : List (List (List Char))}
    (h : TableLinesR M tl rows) : captureTable tl = (rows, []) := by
  induction h with
  | nil => rfl
  | sep s hs hn h ih =>
    obtain ⟨mid, hne, hall, rfl⟩ := hs
    have hcont : (('|' :: mid ++ ['|'] : List Char).contains '|') = true :=
      List.elem_iff.mpr (by simp)
    have hsep : sepHit (pyStrip ('|' :: mid ++ ['|'])) = true := by
      rw [pyStrip_pipe]
      exact (sepHit_iff _).mpr ⟨mid, [], hne, hall, by simp⟩
    rw [captureTable, if_pos hcont, if_pos hsep, ih]
  | row cs hne hM hc hnp h ih =>
    have hcont : ((mkRowL cs).contains '|') = true :=
      List.elem_iff.mpr (by simp [mkRowL])
    have hstrip : pyStrip (mkRowL cs) = mkRowL cs := pyStrip_pipe _
    have hsplit : splitOnC '|' (mkRowL cs) = [] :: (cs ++ [[]]) := by
      have step : splitOnC '|' (mkRowL cs) = [] :: splitOnC '|' (joinSep '|' cs ++ ['|']) := rfl
      rw [step, show (joinSep '|' cs ++ ['|'] : List Char) = joinSep '|' (cs ++ [[]]) from
        (joinSep_append_nil hne).symm]
      rw [splitOnC_joinSep (by simp) ?hnosep]
      case hnosep =>
        intro l hl
        rcases List.mem_append.mp hl with h1 | h2
        · exact (hc l h1).2
        · simp at h2; simp [h2]
    have hcells : ((splitOnC '|' (pyStrip (mkRowL cs))).tail.dropLast).map pyStrip
        = cs.map pyStrip := by
      rw [hstrip, hsplit]
      simp only [List.tail_cons, List.dropLast_concat]
    rw [captureTable, if_pos hcont, if_neg ?hnosep2, hcells, ih]
    case hnosep2 => rw [hstrip]; simp [hnp]
    cases cs with
    | nil => exact absurd rfl hne
    | cons a b => rfl

theorem tlr_no_nl {M : Nat} {tl : List (List Char)} {rows : List (List (List Char))}
    (h : TableLinesR M tl rows) : ∀ l ∈ tl, '\n' ∉ l := by
  induction h with
  | nil => intro l hl; cases hl
  | sep s hs hn h ih =>
    intro l hl
    rcases List.mem_cons.mp hl with h1 | h2
    · rw [h1]; exact hn
    · exact ih l h2
  | row cs hne hM hc hnp h ih =>
    intro l hl
    rcases List.mem_cons.mp hl with h1 | h2
    · rw [h1]
      intro hmem
      rcases List.mem_cons.mp hmem with h3 | h4
      · exact absurd h3 (by decide)
      · rcases List.mem_append.mp h4 with h5 | h6
        · rcases mem_joinSep h5 with h7 | ⟨x, hx, hcx⟩
          · exact absurd h7 (by decide)
          · exact (hc x hx).1 hcx
        · simp at h6
    · exact ih l h2

theorem tlr_rows_nil {M : Nat} {rows : List (List (List Char))}
    (h : TableLinesR M [] rows) : rows = [] := by
  cases h; rfl

theorem tlr_head_shape {M : Nat} {l : List Char} {tl : List (List Char)}
    {rows : List (List (List Char))} (h : TableLinesR M (l :: tl) rows) :
    ∃ xs, l = '|' :: xs ++ ['|'] := by
  cases h with
  | sep s hs hn h =>
    obtain ⟨mid, -, -, hs⟩ := hs
    exact ⟨mid, hs⟩
  | row cs hne hM hc hnp h => exact ⟨joinSep '|' cs, rfl⟩

theorem tlr_row_len {M : Nat} {tl : List (List Char)} {rows : List (List (List Char))}
    (h : TableLinesR M tl rows) : ∀ r ∈ rows, r.length = M := by
  induction h with
  | nil => intro r hr; cases hr
  | sep s hs hn h ih => exact ih
  | row cs hne hM hc hnp h ih =>
    intro r hr
    rcases List.mem_cons.mp hr with h1 | h2
    · rw [h1, List.length_map]; exact hM
    · exact ih r h2

/-! ## Unfolding the block loop on a line that starts with `|` -/

theorem isPrefixOf_hh_pipe (l : List Char) :
    ("## ").toList.isPrefixOf ('|' :: l) = false := rfl

theorem isPrefixOf_hhh_pipe (l : List Char) :
    ("### ").toList.isPrefixOf ('|' :: l) = false := rfl

theorem isPrefixOf_h_pipe (l : List Char) :
    ("# ").toList.isPrefixOf ('|' :: l) = false := rfl

theorem beq_hr_pipe (l : List Char) :
    ((('|' :: l : List Char) == ("---").toList) || (('|' :: l : List Char) == ("***").toList)
      || (('|' :: l : List Char) == ("___").toList)) = false := rfl

theorem tableCond_pipe (l : List Char) :
    (('|' :: l : List Char).contains '|' && ['|'].isPrefixOf ('|' :: l)) = true := by
  cases l <;> rfl

theorem parseLinesF_nil (fuel : Nat) : parseLinesF fuel [] = [] := by
  cases fuel <;> rfl

/-- On a line whose stripped form starts with `|` (and ends with `|`), the
block loop enters the table branch. -/
theorem parseLinesF_pipe (fuel : Nat) (line : List Char) (rest : List (List Char))
    (xs : List Char) (hline : pyStrip line = '|' :: xs ++ ['|']) :
    parseLinesF (fuel + 1) (line :: rest) =
      (if (captureTable (line :: rest)).1.isEmpty then []
       else [Block.table (captureTable (line :: rest)).1])
        ++ parseLinesF fuel (captureTable (line :: rest)).2 := by
  have hlc : pyStrip line = '|' :: (xs ++ ['|']) := hline
  simp only [parseLinesF, hlc, List.isEmpty_cons, isPrefixOf_hh_pipe, isPrefixOf_hhh_pipe,
    isPrefixOf_h_pipe, beq_hr_pipe, tableCond_pipe, Bool.false_eq_true, if_false, if_true]

theorem nil_isPrefixOf_true (l : List Char) : ([] : List Char).isPrefixOf l = true := by
  cases l <;> rfl

theorem singleton_isPrefixOf_of_cons {a : Char} {as s : List Char}
    (h : (a :: as).isPrefixOf s = true) : [a].isPrefixOf s = true := by
  cases s with
  | nil => simp [List.isPrefixOf] at h
  | cons b bs =>
    rw [List.isPrefixOf_cons₂] at h ⊢
    have hab := (Bool.and_eq_true _ _).mp h |>.1
    rw [hab, nil_isPrefixOf_true]
    rfl

/-- A numbered-item match (`^(\d+)\.\s+(.+)$`) implies a numbered-item
start (`^\d+\.\s+`). -/
theorem numStart_of_numMatch {s : List Char} (h : (numMatch s).isSome = true) :
    numStart s = true := by
  simp only [numMatch] at h
  simp only [numStart]
  split at h
  · simp at h
  · rename_i hds
    rw [if_neg hds]
    split at h
    · rename_i t hdrop
      split at h
      · simp at h
      · rename_i hws
        simp [hws]
    · simp at h

/-- Every line matching one of rules 1–6 also breaks paragraph
accumulation; equivalently, a non-breaking line matches no rule. -/
theorem breaksPara_of_rule16 {s : List Char} (h : rule16 s = true) : breaksPara s = true := by
  simp only [rule16, Bool.or_eq_true] at h
  rcases h with ((((((((((h | h) | h) | h) | h) | h) | h) | h) | h) | h) | h)
  · have h' := singleton_isPrefixOf_of_cons
      (by rwa [show ("## ").toList = '#' :: '#' :: [' '] from rfl] at h)
    simp only [breaksPara, h', Bool.or_true, Bool.true_or]
  · have h' := singleton_isPrefixOf_of_cons
      (by rwa [show ("### ").toList = '#' :: '#' :: '#' :: [' '] from rfl] at h)
    simp only [breaksPara, h', Bool.or_true, Bool.true_or]
  · have h' := singleton_isPrefixOf_of_cons
      (by rwa [show ("# ").toList = '#' :: [' '] from rfl] at h)
    simp only [breaksPara, h', Bool.or_true, Bool.true_or]
  · simp only [breaksPara, h, Bool.or_true, Bool.true_or]
  · simp only [breaksPara, h, Bool.or_true, Bool.true_or]
  · simp only [breaksPara, h, Bool.or_true, Bool.true_or]
  · have h' := (Bool.and_eq_true _ _).mp h |>.2
    simp only [breaksPara, h', Bool.or_true, Bool.true_or]
  · simp only [breaksPara, h, Bool.or_true, Bool.true_or]
  · simp only [breaksPara, h, Bool.or_true, Bool.true_or]
  · simp only [breaksPara, h, Bool.or_true, Bool.true_or]
  · have h' := numStart_of_numMatch h
    simp only [breaksPara, h', Bool.or_true, Bool.true_or]

/-- If no line breaks the accumulation, the paragraph loop consumes them
all, collecting their stripped text. -/
theorem capturePara_all {ls : List (List Char)}
    (h : ∀ l ∈ ls, breaksPara (pyStrip l) = false) :
    capturePara ls = (ls.map pyStrip, []) := by
  induction ls with
  | nil => rfl
  | cons l rest ih =>
    rw [capturePara, if_neg (by simp [h l (List.mem_cons_self _ _)]),
      ih (fun x hx => h x (List.mem_cons_of_mem _ hx))]
    rfl

/-- On a stripped-nonblank line matching none of rules 1–6, the block loop
enters paragraph accumulation. -/
theorem parseLinesF_para (fuel : Nat) (line : List Char) (rest : List (List Char))
    (h0e : (pyStrip line).isEmpty = false) (h0 : rule16 (pyStrip line) = false) :
    parseLinesF (fuel + 1) (line :: rest) =
      Block.paragraph (joinSep ' ' (pyStrip line :: (capturePara rest).1))
        :: parseLinesF fuel (capturePara rest).2 := by
  have h := h0
  simp only [rule16, Bool.or_eq_false_iff] at h
  obtain ⟨⟨⟨⟨⟨⟨⟨⟨⟨⟨h1, h2⟩, h3⟩, h4⟩, h5⟩, h6⟩, h7⟩, h8⟩, h9⟩, h10⟩, h11⟩ := h
  have hnone : numMatch (pyStrip line) = none :=
    Option.not_isSome_iff_eq_none.mp (by simp [h11])
  simp only [parseLinesF, h0e, h1, h2, h3, h4, h5, h6, h7, h8, h9, h10, hnone,
    Bool.false_eq_true, if_false, Bool.or_self, Bool.or_false, Bool.false_or]

/-- A stripped-nonblank first line matching none of rules 1–6, followed by
non-breaking non-blank lines, is parsed as a single paragraph joining their
stripped text with single spaces. -/
theorem parse_markdown_para (l0 : List Char) (ls : List (List Char))
    (h0e : (pyStrip l0).isEmpty = false) (h0 : rule16 (pyStrip l0) = false)
    (h0n : '\n' ∉ l0) (hls : ∀ l ∈ ls, '\n' ∉ l ∧ breaksPara (pyStrip l) = false) :
    parse_markdown (joinSep '\n' (l0 :: ls)) =
      [Block.paragraph (joinSep ' ' (pyStrip l0 :: ls.map pyStrip))] := by
  have hsplit : splitOnC '\n' (joinSep '\n' (l0 :: ls)) = l0 :: ls := by
    apply splitOnC_joinSep (by simp)
    intro l hl
    rcases List.mem_cons.mp hl with h1 | h2
    · rw [h1]; exact h0n
    · exact (hls l h2).1
  rw [parse_markdown]
  simp only [hsplit]
  rw [show (l0 :: ls).length = ls.length + 1 from rfl]
  rw [parseLinesF_para ls.length l0 ls h0e h0,
    capturePara_all (fun l hl => (hls l hl).2)]
  simp [parseLinesF_nil]

/-- Every row kept by the table-capture loop has at least one cell
(`if cells:` in the source). -/
theorem captureTable_rows_ne {ls : List (List Char)} :
    ∀ r ∈ (captureTable ls).1, r ≠ [] := by
  induction ls with
  | nil => intro r hr; cases hr
  | cons line rest ih =>
    intro r hr
    simp only [captureTable] at hr
    split at hr
    · split at hr
      · exact ih r hr
      · simp only [] at hr
        split at hr
        · exact ih r hr
        · rename_i hce
          rcases List.mem_cons.mp hr with h1 | h2
          · rw [h1]
            intro hnil
            rw [hnil] at hce
            simp at hce
          · exact ih r h2
    · cases hr

/-- Any table block emitted by the block loop has a nonempty row list, and
every row is nonempty. -/
theorem parseLinesF_table_inv : ∀ (fuel : Nat) (ls : List (List Char))
    (rows : List (List (List Char))), Block.table rows ∈ parseLinesF fuel ls →
    rows ≠ [] ∧ ∀ r ∈ rows, r ≠ [] := by
  intro fuel
  induction fuel with
  | zero => intro ls rows h; cases h
  | succ fuel ih =>
    intro ls rows h
    cases ls with
    | nil => cases h
    | cons line rest =>
      simp only [parseLinesF] at h
      split at h
      · exact ih rest rows h
      · split at h
        · rcases List.mem_cons.mp h with h1 | h2
          · simp at h1
          · exact ih rest rows h2
        · split at h
          · rcases List.mem_cons.mp h with h1 | h2
            · simp at h1
            · exact ih rest rows h2
          · split at h
            · rcases List.mem_cons.mp h with h1 | h2
              · simp at h1
              · exact ih rest rows h2
            · split at h
              · rcases List.mem_cons.mp h with h1 | h2
                · simp at h1
                · exact ih rest rows h2
              · split at h
                · rcases List.mem_append.mp h with h1 | h2
                  · split at h1
                    · cases h1
                    · rename_i hcap
                      rcases List.mem_cons.mp h1 with h3 | h4
                      · have hrows : rows = (captureTable (line :: rest)).1 := by
                          injection h3
                        constructor
                        · rw [hrows]
                          intro hnil
                          rw [hnil] at hcap
                          simp at hcap
                        · rw [hrows]
                          exact captureTable_rows_ne
                      · cases h4
                  · exact ih _ rows h2
                · split at h
                  · rcases List.mem_cons.mp h with h1 | h2
                    · simp at h1
                    · exact ih rest rows h2
                  · split at h
                    · rcases List.mem_cons.mp h with h1 | h2
                      · simp at h1
                      · exact ih rest rows h2
                    · rcases List.mem_cons.mp h with h1 | h2
                      · simp at h1
                      · exact ih _ rows h2

/-- The first list element satisfying `p`, as returned by `find?`, splits
the list into unsatisfying elements before it and the rest after it. -/
theorem find?_first {p : String → Bool} {l : List String} {a : String}
    (h : l.find? p = some a) :
    p a = true ∧ ∃ l₁ l₂, l = l₁ ++ a :: l₂ ∧ ∀ x ∈ l₁, p x = false := by
  induction l with
  | nil => cases h
  | cons b rest ih =>
    by_cases hpb : p b = true
    · rw [List.find?_cons_of_pos _ hpb] at h
      simp only [Option.some.injEq] at h
      subst h
      exact ⟨hpb, [], rest, rfl, fun x hx => by cases hx⟩
    · rw [List.find?_cons_of_neg _ hpb] at h
      obtain ⟨hpa, l₁, l₂, heq, hall⟩ := ih h
      refine ⟨hpa, b :: l₁, l₂, by rw [heq]; rfl, ?_⟩
      intro x hx
      rcases List.mem_cons.mp hx with h1 | h2
      · rw [h1]; exact Bool.not_eq_true _ ▸ hpb
      · exact hall x h2

/-- For every well-formed pipe table (in the sense of `TableLinesR`) with at
least one data row, `parse_markdown` of the joined lines is exactly one
table block holding the trimmed data rows, each of width `M`. -/
theorem parse_markdown_wf_table {M : Nat} {tl : List (List Char)}
    {rows : List (List (List Char))} (h : TableLinesR M tl rows) (hrows : rows ≠ []) :
    parse_markdown (joinSep '\n' tl) = [Block.table rows] ∧ ∀ r ∈ rows, r.length = M := by
  refine ⟨?_, tlr_row_len h⟩
  cases tl with
  | nil => exact absurd (tlr_rows_nil h) hrows
  | cons l0 tlrest =>
    have hsplit : splitOnC '\n' (joinSep '\n' (l0 :: tlrest)) = l0 :: tlrest :=
      splitOnC_joinSep (by simp) (tlr_no_nl h)
    obtain ⟨xs, hl0⟩ := tlr_head_shape h
    have hcap : captureTable (l0 :: tlrest) = (rows, []) := captureTable_tlr h
    have hstrip : pyStrip l0 = '|' :: xs ++ ['|'] := by rw [hl0]; exact pyStrip_pipe xs
    rw [parse_markdown]
    simp only [hsplit]
    rw [show (l0 :: tlrest).length = tlrest.length + 1 from rfl]
    rw [parseLinesF_pipe tlrest.length l0 tlrest xs hstrip, hcap]
    cases rows with
    | nil => exact absurd rfl hrows
    | cons r rs => simp [parseLinesF_nil]


/-! ## The claims -/

/-- Claim C1: for every input, the inline formatter produces spans in
source order that do not overlap and cover the whole input: annotating each
span with its source segment, the segments concatenate to exactly the
original text, and each span's content is its segment minus the consumed
markup delimiters (`[ ]( )` for links, `**`/`__` for bold, `*`/`_` for
italic, nothing for plain text) — so every character other than consumed
delimiters appears in exactly one span's content. -/
theorem claim_c1_inline_partition (text : List Char) :
    parse_inline text = (parseInlineSrc text).map Prod.fst
    ∧ srcConcat (parseInlineSrc text) = text
    ∧ ∀ p ∈ parseInlineSrc text, spanSrcOk p := by
  refine ⟨rfl, ?_⟩
  rw [parseInlineSrc]
  by_cases hps : (scanAuxF text.length none [] text).isEmpty
  · rw [if_pos hps]
    have hspec := scanAuxF_spec text.length none [] text (Nat.le_refl _)
    have hempty : scanAuxF text.length none [] text = [] := List.isEmpty_iff.mp hps
    have htext : text = [] := by
      have h1 := hspec.1
      rw [hempty] at h1
      simpa [srcConcat] using h1.symm
    subst htext
    refine ⟨by simp [srcConcat], ?_⟩
    intro p hp
    rcases List.mem_cons.mp hp with h1 | h2
    · rw [h1]; exact rfl
    · cases h2
  · rw [if_neg hps]
    have hspec := scanAuxF_spec text.length none [] text (Nat.le_refl _)
    exact ⟨by rw [hspec.1]; simp, hspec.2⟩

/-- Claim C2 (counterexample): the table `| a | b |` / `| - | x |` is a
well-formed 2×2 pipe table with no alignment-separator row (the second line
contains `x`, so it does not consist of `-`, `:`, whitespace, `|`), yet the
parser discards its second row — the produced table block has one data row,
not two as the claim requires. -/
theorem claim_c2_counterexample :
    parse_markdown ("| a | b |\n| - | x |").toList = [Block.table [[['a'], ['b']]]]
    ∧ ¬ IsSepLine ("| - | x |").toList := by
  constructor
  · rfl
  · rintro ⟨mid, hne, hall, heq⟩
    have heq' : (' ' :: '-' :: ' ' :: '|' :: ' ' :: 'x' :: ' ' :: '|' :: [] : List Char)
        = mid ++ ['|'] := (List.cons_eq_cons.mp heq).2
    have hmid := congrArg List.dropLast heq'
    rw [List.dropLast_concat] at hmid
    have hx := hall 'x' (by rw [← hmid]; exact (by decide : 'x' ∈
      (' ' :: '-' :: ' ' :: '|' :: ' ' :: 'x' :: ' ' :: '|' :: [] : List Char).dropLast))
    exact absurd hx (by decide)

/-- Claim C2 (amended): for every well-formed pipe table of `M ≥ 1` columns
with at least one data row, where additionally no data line starts with `|`
followed by a nonempty run of `-`, `:`, whitespace, `|` and another `|`
(the code's prefix-based separator test, which would discard such a line),
`parse_markdown` of the joined lines returns exactly one table block whose
rows are the trimmed data rows, in source order, each of length `M`. -/
theorem claim_c2_amended {M : Nat} {tl : List (List Char)}
    {rows : List (List (List Char))} (h : TableLinesR M tl rows) (hrows : rows ≠ []) :
    parse_markdown (joinSep '\n' tl) = [Block.table rows] ∧ ∀ r ∈ rows, r.length = M :=
  parse_markdown_wf_table h hrows

/-- Claim C2 (witness): the amended theorem applied to the concrete table
`|a|` / `|-|` (one data row, one alignment row, one column). -/
theorem claim_c2_witness :
    parse_markdown ("|a|\n|-|").toList = [Block.table [[['a']]]]
    ∧ ∀ r ∈ ([[['a']]] : List (List (List Char))), r.length = 1 := by
  have hrel : TableLinesR 1 [('|' :: ['a'] ++ ['|']), ('|' :: ['-'] ++ ['|'])] [[['a']]] := by
    refine TableLinesR.row [['a']] (by simp) rfl ?_ (by decide)
      (TableLinesR.sep _ ⟨['-'], by simp, by decide, rfl⟩ (by decide) TableLinesR.nil)
    intro c hc
    rcases List.mem_cons.mp hc with h1 | h2
    · rw [h1]; exact ⟨by decide, by decide⟩
    · cases h2
  exact claim_c2_amended hrel (by simp)

/-- Claim C3 (counterexample): during table capture, the consumed line
`|-|x|` does not consist of `|` followed only by `-`, `:`, whitespace, `|`
(it contains `x`), so by the claim it should become the data row
`["-","x"]`; the code nevertheless discards it, because `re.match` only
requires a matching prefix (`|-|`). -/
theorem claim_c3_counterexample :
    parse_markdown ("|x|\n|-|x|").toList = [Block.table [[['x']]]]
    ∧ ¬ IsSepLine ("|-|x|").toList := by
  constructor
  · rfl
  · rintro ⟨mid, hne, hall, heq⟩
    have heq' : ('-' :: '|' :: 'x' :: '|' :: [] : List Char) = mid ++ ['|'] :=
      (List.cons_eq_cons.mp heq).2
    have hmid := congrArg List.dropLast heq'
    rw [List.dropLast_concat] at hmid
    have hx := hall 'x' (by rw [← hmid]; exact (by decide : 'x' ∈
      ('-' :: '|' :: 'x' :: '|' :: [] : List Char).dropLast))
    exact absurd hx (by decide)

/-- Claim C3 (amended): during table capture a consumed line is discarded
as an alignment separator if and only if its stripped form has a prefix of
the shape `|`, then at least one character from `-`, `:`, whitespace, `|`,
then another `|` (the rest of the line unconstrained); every other consumed
line is split on `|` with the first and last fields discarded
unconditionally and the remaining cells trimmed, and it becomes a data row
only when at least one cell remains. -/
theorem claim_c3_amended (line : List Char) (rest : List (List Char))
    (hc : line.contains '|' = true) :
    (sepHit (pyStrip line) = true ↔ ∃ mid t, mid ≠ []
      ∧ (∀ c ∈ mid, isSepClass c = true) ∧ pyStrip line = '|' :: mid ++ '|' :: t)
    ∧ (sepHit (pyStrip line) = true → captureTable (line :: rest) = captureTable rest)
    ∧ (sepHit (pyStrip line) = false →
        captureTable (line :: rest) =
          (if (((splitOnC '|' (pyStrip line)).tail.dropLast).map pyStrip).isEmpty
           then (captureTable rest).1
           else (((splitOnC '|' (pyStrip line)).tail.dropLast).map pyStrip)
             :: (captureTable rest).1,
           (captureTable rest).2)) := by
  refine ⟨sepHit_iff _, ?_, ?_⟩
  · intro hsep
    rw [captureTable, if_pos hc, if_pos hsep]
  · intro hsep
    rw [captureTable, if_pos hc, if_neg (by simp [hsep])]

/-- Claim C3 (witness): the amended theorem applied to the single consumed
line `|-|x|`, which the capture loop discards. -/
theorem claim_c3_witness :
    captureTable [("|-|x|").toList] = captureTable [] :=
  (claim_c3_amended ("|-|x|").toList [] (by decide)).2.1 (by decide)

/-- Claim C4: on `"**a** and *b* and [c](http://x)"` the inline formatter
yields exactly the five spans Bold "a", PlainText " and ", Italic "b",
PlainText " and ", Link "c" "http://x", in that order, and concatenating
their contents (the label for the link) gives `"a and b and c"`. -/
theorem claim_c4_example :
    parse_inline ("**a** and *b* and [c](http://x)").toList =
      [Span.bold ['a'], Span.text (" and ").toList, Span.italic ['b'],
       Span.text (" and ").toList, Span.link ['c'] ("http://x").toList]
    ∧ ((parse_inline ("**a** and *b* and [c](http://x)").toList).map contentOf).flatten
        = ("a and b and c").toList := by
  exact ⟨rfl, rfl⟩

/-- Claim C5 (counterexample): in `"a\n#b"` the line `#b` is non-blank and
matches none of rules 1–6 (it is not a heading — no space after `#` — nor
any other block form), so by the claim it should be joined into the same
paragraph as `a`; the code instead stops accumulation at any line starting
with `#` and produces two paragraph blocks. -/
theorem claim_c5_counterexample :
    parse_markdown ("a\n#b").toList = [Block.paragraph ['a'], Block.paragraph ['#', 'b']]
    ∧ rule16 ['#', 'b'] = false
    ∧ (pyStrip ['#', 'b']).isEmpty = false := by
  exact ⟨rfl, by decide, rfl⟩

/-- Claim C5 (amended): a line matching none of rules 1–6 starts a
paragraph, and all immediately following non-blank lines that do not match
the paragraph-break conditions (line starts with `#` or `|`, is a
horizontal rule, starts with a bullet marker, or starts like a numbered
item — a strictly wider set than rules 1–6) are joined with single spaces
into one paragraph block; every line matching rules 1–6 does break
accumulation. -/
theorem claim_c5_amended (l0 : List Char) (ls : List (List Char))
    (h0e : (pyStrip l0).isEmpty = false) (h0 : rule16 (pyStrip l0) = false)
    (h0n : '\n' ∉ l0) (hls : ∀ l ∈ ls, '\n' ∉ l ∧ breaksPara (pyStrip l) = false) :
    parse_markdown (joinSep '\n' (l0 :: ls)) =
      [Block.paragraph (joinSep ' ' (pyStrip l0 :: ls.map pyStrip))]
    ∧ ∀ s : List Char, rule16 s = true → breaksPara s = true :=
  ⟨parse_markdown_para l0 ls h0e h0 h0n hls, fun _ hs => breaksPara_of_rule16 hs⟩

/-- Claim C5 (witness): the amended theorem applied to the two lines
`a` and `b`, which are joined into the single paragraph `a b`. -/
theorem claim_c5_witness :
    parse_markdown ("a\nb").toList = [Block.paragraph ['a', ' ', 'b']] := by
  have h := claim_c5_amended ['a'] [['b']] (by decide) (by decide) (by decide) ?hls
  case hls =>
    intro l hl
    rcases List.mem_cons.mp hl with h1 | h2
    · rw [h1]; exact ⟨by decide, by decide⟩
    · cases h2
  exact h.1

/-- Claim C7: with empty markdown text (and any title and timestamp),
`parse_markdown` produces zero blocks rather than failing, and the document
assembly is total and yields a non-empty document consisting of only the
title and timestamp header. -/
theorem claim_c7_empty_input (dateStr title : List Char) :
    parse_markdown [] = []
    ∧ generate_pdf dateStr [] title = [RenderOp.titleCell title, RenderOp.dateCell dateStr]
    ∧ generate_pdf dateStr [] title ≠ [] := by
  exact ⟨rfl, rfl, by simp [generate_pdf]⟩

/-- Claim C8: for every configuration of existing font files, `_find_font`
returns the first existing candidate of the style's list; when a regular
font is found it is registered and the engine switches to the `Unicode`
family; when the bold (resp. italic) variant is missing the regular file is
registered for that style instead of failing; and when no regular candidate
exists the engine keeps the built-in `Helvetica` font with no
registrations, never raising. -/
theorem claim_c8_fonts (fs : String → Bool) :
    (∀ ty p, find_font fs ty = some p → fs p = true
      ∧ ∃ l₁ l₂, fontPaths ty = l₁ ++ p :: l₂ ∧ ∀ q ∈ l₁, fs q = false)
    ∧ (∀ r, find_font fs "regular" = some r →
        (setup_fonts fs).font_name = "Unicode" ∧ ("Unicode", "", r) ∈ (setup_fonts fs).regs)
    ∧ (∀ r, find_font fs "regular" = some r → find_font fs "bold" = none →
        ("Unicode", "B", r) ∈ (setup_fonts fs).regs)
    ∧ (∀ r, find_font fs "regular" = some r → find_font fs "italic" = none →
        ("Unicode", "I", r) ∈ (setup_fonts fs).regs)
    ∧ (find_font fs "regular" = none →
        (setup_fonts fs).font_name = "Helvetica" ∧ (setup_fonts fs).regs = []) := by
  refine ⟨?_, ?_, ?_, ?_, ?_⟩
  · intro ty p hp
    exact find?_first hp
  · intro r hr
    rw [setup_fonts, hr]
    exact ⟨rfl, by simp⟩
  · intro r hr hb
    rw [setup_fonts, hr, hb]
    simp
  · intro r hr hi
    rw [setup_fonts, hr, hi]
    simp
  · intro hr
    rw [setup_fonts, hr]
    exact ⟨rfl, rfl⟩

/-- Claim C8 (witness): a filesystem where only the second regular
candidate exists; the engine registers it for the regular, bold and italic
styles and switches to the `Unicode` family. -/
theorem claim_c8_fonts_witness :
    (setup_fonts (fun p => p == "/usr/share/fonts/dejavu-sans-fonts/DejaVuSans.ttf")).font_name
      = "Unicode"
    ∧ ("Unicode", "B", "/usr/share/fonts/dejavu-sans-fonts/DejaVuSans.ttf")
        ∈ (setup_fonts (fun p => p == "/usr/share/fonts/dejavu-sans-fonts/DejaVuSans.ttf")).regs := by
  have h := claim_c8_fonts (fun p => p == "/usr/share/fonts/dejavu-sans-fonts/DejaVuSans.ttf")
  exact ⟨(h.2.1 "/usr/share/fonts/dejavu-sans-fonts/DejaVuSans.ttf" (by decide)).1,
    h.2.2.1 "/usr/share/fonts/dejavu-sans-fonts/DejaVuSans.ttf" (by decide) (by decide)⟩

/-- Claim C10: every table block produced by `parse_markdown` has at least
one row and every row has at least one cell, so the first row's length is
at least 1 (`render_table`'s column count is never zero and its empty-rows
early return is unreachable on parser output). -/
theorem claim_c10_table_rows (text : List Char) (rows : List (List (List Char)))
    (h : Block.table rows ∈ parse_markdown text) :
    rows ≠ [] ∧ (∀ r ∈ rows, r ≠ []) ∧ 1 ≤ (rows.headD []).length := by
  have h2 := parseLinesF_table_inv _ _ rows h
  refine ⟨h2.1, h2.2, ?_⟩
  cases rows with
  | nil => exact absurd rfl h2.1
  | cons r rs =>
    have hr : r ≠ [] := h2.2 r (List.mem_cons_self _ _)
    cases r with
    | nil => exact absurd rfl hr
    | cons a b => simp

/-- Claim C10 (witness): the theorem applied to the concrete input `|a|`,
whose parse is one table block with one one-cell row. -/
theorem claim_c10_table_rows_witness :
    ([[['a']]] : List (List (List Char))) ≠ []
    ∧ (∀ r ∈ ([[['a']]] : List (List (List Char))), r ≠ [])
    ∧ 1 ≤ (([[['a']]] : List (List (List Char))).headD []).length :=
  claim_c10_table_rows ("|a|").toList [[['a']]] (by decide)
